import Mathlib

/-!
Verification of the RL78 libgcc multiply helpers (`libgcc/config/rl78/mulsi3.S`)
and of two GCC testsuite fixtures
(`gcc.target/arm/neon-vshl-imm-1.c` and the SH PR target/50749 post-increment
fixture), as a shallow embedding in Lean 4.

Machine words are modelled as `Nat` with explicit `% 65536` (16-bit registers)
and `% 4294967296` (32-bit values).  The unbounded assembly loops are modelled
with an explicit fuel parameter, one fuel unit per shift of the multiplier
word, so that termination is a theorem rather than an assumption: `none`
means the loop was cut off before reaching its exit.
-/

/-- The shift-and-add loop entered at label `.Lmul_hi_loop` of
`libgcc/config/rl78/mulsi3.S` (lines 181-200).  State: `ax` is the multiplier
word (bank-0 AX), `bc` the multiplicand word (bank-0 BC), `r8` the 16-bit
accumulator (bank-1 AX).  One step is one `shrw ax, 1`: if the carry (the
shifted-out bit) is set, control goes through `.Lmul_hi_top`
(`addw ax, r_2` under bank 1, i.e. `r8 += bc`) and `.Lmul_hi_no_add`
(`shlw bc, 1`) back to the loop head with no zero test; if the carry is
clear, the loop exits when the shifted multiplier is zero and otherwise
shifts `bc` and continues.  The source unrolls this body twice; the two
halves are identical under this per-shift reading. -/
def mulHiFrom : Nat → Nat → Nat → Nat → Option Nat
  | 0, _, _, _ => none
  | fuel + 1, ax, bc, r8 =>
    let ax' := ax / 2
    if ax % 2 = 1 then
      mulHiFrom fuel ax' (bc * 2 % 65536) ((r8 + bc) % 65536)
    else if ax' = 0 then some r8
    else mulHiFrom fuel ax' (bc * 2 % 65536) r8

/-- The subroutine entered at label `.Lmul_hi` (lines 175-179):
`cmpw ax, bc` sets the carry exactly when `ax < bc`; `skc` skips the
`xchw ax, bc` in that case, so the smaller word ends up in `ax` and drives
the shift loop. -/
def mulHiEntry (fuel ax bc r8 : Nat) : Option Nat :=
  if ax < bc then mulHiFrom fuel ax bc r8 else mulHiFrom fuel bc ax r8

/-- `___mulhi3` (lines 167-200): `r8 := 0`, `bc := [sp+6]` (second operand),
`ax := [sp+4]` (first operand), then fall into `.Lmul_hi`. -/
def ___mulhi3 (fuel a b : Nat) : Option Nat :=
  mulHiEntry fuel a b 0

/-- One cross-term phase of `___mulsi3` (lines 59-74 for `opHi = B.high`,
`opLo = A.low`; lines 77-92 for `opHi = A.high`, `opLo = B.low`).  If the
high word is zero the phase is skipped (`bz $1f`); if it is `0xffff` the
product `opLo * 0xffff ≡ -opLo` is folded into a single
`subw ax, r_0` on the bank-1 accumulator; otherwise, unless `opLo` is zero
(`cmpw ax, #0 ; skz`), `.Lmul_hi` is called to accumulate
`opLo * opHi` into `r8`. -/
def crossTerm (fuel opHi opLo r8 : Nat) : Option Nat :=
  if opHi = 0 then some r8
  else if opHi = 65535 then some ((r8 + (65536 - opLo)) % 65536)
  else if opLo = 0 then some r8
  else mulHiEntry fuel opLo opHi r8

/-- The 32-bit accumulate loop of `___mulsi3` entered at `.Lmul_hisi_top`
(lines 117-153).  State: `ax` is the 16-bit multiplier (bank-0 AX); the
32-bit shifted multiplicand has low word `bcLo` in bank-1 BC (`r10`) and
high word `bcHi` in bank-0 BC; the 32-bit accumulator has low word `r8`
(bank-1 AX) and high word `r16` (bank-2 AX).  One step is one
`shrw ax, 1`: on carry, `addw ax, bc` under bank 1 adds `bcLo` into `r8`,
`sknc / incw ax` propagates the carry into `r16`, and `addw ax, r_2` under
bank 2 adds `bcHi` into `r16` (the carry out of the high word is dropped);
then `shlw bc, 1` under bank 1 and `rolwc bc, 1` under bank 0 shift the
32-bit multiplicand left, and `cmpw ax, #0` exits the loop as soon as the
remaining multiplier is zero.  The source unrolls the body twice; both
halves are identical under this per-shift reading. -/
def mulHiSiFrom : Nat → Nat → Nat → Nat → Nat → Nat → Option (Nat × Nat)
  | 0, _, _, _, _, _ => none
  | fuel + 1, ax, bcLo, bcHi, r8, r16 =>
    if ax / 2 = 0 then
      some (if ax % 2 = 1 then (r8 + bcLo) % 65536 else r8,
            if ax % 2 = 1 then (r16 + (r8 + bcLo) / 65536 + bcHi) % 65536 else r16)
    else
      mulHiSiFrom fuel (ax / 2) (bcLo * 2 % 65536) ((bcHi * 2 + bcLo * 2 / 65536) % 65536)
        (if ax % 2 = 1 then (r8 + bcLo) % 65536 else r8)
        (if ax % 2 = 1 then (r16 + (r8 + bcLo) / 65536 + bcHi) % 65536 else r16)

/-- The body of `___mulsi3` (lines 55-156) between the bank-2 register saves
and restores.  The operands `a` (at `[sp+8]`/`[sp+10]` after the two pushes,
i.e. `[sp+4]` at call time) and `b` (at `[sp+12]`/`[sp+14]`) are 32-bit
values; their stack words are `aL = a % 2^16`, `aH = a / 2^16`, etc.
First `r8` and `r16` are cleared; the two cross-term phases accumulate
`aL*bH + aH*bL` into `r8` (16 bits); then `r16 := r8`, `r8 := 0`
(lines 95-98), and the `.Lmul_hisi` loop adds `aL * bL` into the 32-bit
accumulator `r16:r8`.  The compare at lines 110-114 (`cmpw ax, r10` with
`ax = bL`, `r10 = aL`; `bc $.Lmul_hisi_top` on carry, i.e. on `bL < aL`)
puts the smaller low word in `ax` as the loop's multiplier and the larger
in `r10` as the multiplicand.  Returns the final `(r8r9, r10r11)` pair:
lines 155-156 copy `r16` into `r10` as the high result word. -/
def mulsi3body (fuel a b : Nat) : Option (Nat × Nat) :=
  match crossTerm fuel (b / 65536 % 65536) (a % 65536) 0 with
  | none => none
  | some r8a =>
    match crossTerm fuel (a / 65536 % 65536) (b % 65536) r8a with
    | none => none
    | some r8b =>
      if b % 65536 < a % 65536 then
        mulHiSiFrom fuel (b % 65536) (a % 65536) 0 0 r8b
      else
        mulHiSiFrom fuel (a % 65536) (b % 65536) 0 0 r8b

/-- `___mulsi3` (lines 44-163).  On entry the routine selects register
bank 2 and pushes that bank's AX (`r16r17`) and BC (`r18r19`) onto the
stack (lines 50-53); on exit it pops them back in reverse order
(lines 158-161) before `ret`.  `b2ax` and `b2bc` are the caller's values
of those registers; the model keeps the pushed words on an explicit stack
and the popped values are whatever that stack holds.  The result tuple is
`(r8r9, r10r11, bank-2 AX, bank-2 BC)` at `ret`. -/
def ___mulsi3 (fuel a b b2ax b2bc : Nat) : Option (Nat × Nat × Nat × Nat) :=
  let stack : List Nat := [b2bc, b2ax]
  match mulsi3body fuel a b with
  | none => none
  | some (r8r9, r10r11) => some (r8r9, r10r11, stack.getD 1 0, stack.getD 0 0)

/-- The two's-complement reading of a 32-bit bit pattern. -/
def toSigned32 (x : Nat) : Int :=
  if x < 2147483648 then (x : Int) else (x : Int) - 4294967296

/-- 32-bit two's-complement truncation of an integer value. -/
def wrap32 (v : Int) : Int :=
  (v + 2147483648) % 4294967296 - 2147483648

/-- The loop of `f1` in `gcc.target/arm/neon-vshl-imm-1.c`
(`for (i = 0; i < n; ++i) y[i] = x[i] << 3;`).  `x` maps an index to the
`int` stored there; the returned list is the trace of stores performed on
`y`, in execution order: the pair `(i, v)` means `y[i] = v`.  The loop
variable `i` is an `int` starting at 0, the guard is `i < n`, and
`x[i] << 3` is `x[i] * 8` truncated to 32-bit two's complement.  `x` is
only read, never written, so the trace contains stores to `y` alone. -/
def f1Loop (n : Int) (x : Int → Int) (i : Int) : List (Int × Int) :=
  if h : i < n then (i, wrap32 (x i * 8)) :: f1Loop n x (i + 1) else []
termination_by (n - i).toNat
decreasing_by
  omega

/-- `f1 (int n, int x[], int y[])`: run the loop from `i = 0`. -/
def f1 (n : Int) (x : Int → Int) : List (Int × Int) :=
  f1Loop n x 0

/-- The do-while loop of `test_func_00` (SH PR target/50749 fixture):
`float r = 0; do { r += *p++; } while (--c); return r;`.  Float addition is
kept abstract as `add` (no associativity or unit law is assumed), so the
result is exactly the left-to-right accumulation the code performs.
`p` maps an offset from the initial pointer to the float stored there,
`i` is the current offset (the pointer advances each iteration), `c` is
the 32-bit `int` counter and `--c` wraps like the machine operation.
The returned tuple is `(r, iterations executed, final c, finished)`;
`finished = false` means the fuel ran out before `--c` reached zero. -/
def tfLoop {α : Type} (add : α → α → α) (p : Nat → α) :
    Nat → α → Nat → Int → α × Nat × Int × Bool
  | 0, r, i, c => (r, i, c, false)
  | fuel + 1, r, i, c =>
    if wrap32 (c - 1) = 0 then (add r (p i), i + 1, wrap32 (c - 1), true)
    else tfLoop add p fuel (add r (p i)) (i + 1) (wrap32 (c - 1))

/-- `test_func_00 (float* p, int c)`: start with `r = 0` (the abstract
`zero`), offset 0, counter `c`. -/
def test_func_00 {α : Type} (add : α → α → α) (zero : α) (p : Nat → α)
    (c : Int) (fuel : Nat) : α × Nat × Int × Bool :=
  tfLoop add p fuel zero 0 c

/-- One `dg-final` directive of a testsuite fixture: `scan-assembler PAT`
(the compiled assembly must match the Tcl regex `PAT` somewhere) or
`scan-assembler-times PAT N` (it must match exactly `N` times). -/
inductive DgFinal where
  | scanAssembler (pat : String)
  | scanAssemblerTimes (pat : String) (n : Nat)

/-- A testsuite fixture's harness directives: its `dg-options` flags and its
`dg-final` assertions. -/
structure DgTest where
  options : List String
  finals : List DgFinal

/-- Consume the expected character sequence from the front, returning the
remainder on success. -/
def stripSeq : List Char → List Char → Option (List Char)
  | [], cs => some cs
  | _ :: _, [] => none
  | e :: es, c :: cs => if c = e then stripSeq es cs else none

/-- Drop a leading run of decimal digits. -/
def dropDigits : List Char → List Char
  | [] => []
  | c :: cs => if c.isDigit then dropDigits cs else c :: cs

/-- Consume one or more decimal digits (`[0-9]+`), greedily. -/
def digitsPlus : List Char → Option (List Char)
  | [] => none
  | c :: cs => if c.isDigit then some (dropDigits cs) else none

/-- Does `pat` occur as a contiguous subsequence? -/
def occursIn (pat : List Char) : List Char → Bool
  | [] => pat.isEmpty
  | c :: cs => (stripSeq pat (c :: cs)).isSome || occursIn pat cs

/-- Matcher for the regex `vshl\.i32.*#3` of `neon-vshl-imm-1.c`: the text
`vshl.i32` followed (anywhere later on the line) by `#3`. -/
def vshlThenImm3 : List Char → Bool
  | [] => false
  | c :: cs =>
    (match stripSeq ("vshl.i32".toList) (c :: cs) with
     | some rest => occursIn ("#3".toList) rest
     | none => false) ||
    vshlThenImm3 cs

/-- Match the regex `fmov.s\t@r[0-9]+\+,fr[0-9]+` of the PR target/50749
fixture at the start of the text: a post-increment FPU load
`fmov.s @rN+,frM`. -/
def matchFmovHere (cs : List Char) : Bool :=
  match stripSeq ("fmov.s\t@r".toList) cs with
  | none => false
  | some cs1 =>
    match digitsPlus cs1 with
    | none => false
    | some cs2 =>
      match stripSeq ("+,fr".toList) cs2 with
      | none => false
      | some cs3 => (digitsPlus cs3).isSome

/-- Match the post-increment `fmov.s` load anywhere in the text. -/
def fmovScan : List Char → Bool
  | [] => false
  | c :: cs => matchFmovHere (c :: cs) || fmovScan cs

/-- The Tcl regex of the `scan-assembler` directive in
`gcc.target/arm/neon-vshl-imm-1.c`, as written in the source. -/
def vshlRegex : String := "vshl\\.i32.*#3"

/-- The Tcl regex of the `scan-assembler-times` directive in the
PR target/50749 fixture, as written in the source. -/
def fmovRegex : String := "fmov.s\\t@r\\[0-9]\\+\\\\+,fr\\[0-9]\\+"

/-- Modelled from the spec: the DejaGnu harness that interprets
`scan-assembler` regexes is not part of the sources (only the two fixtures
are); the spec describes them as "two regression tests asserting specific
instruction-selection outcomes", so matching is modelled by the two
hand-rolled matchers above, one for each regex the fixtures use. -/
def patternMatches (pat : String) (line : String) : Bool :=
  if pat = vshlRegex then vshlThenImm3 line.toList
  else if pat = fmovRegex then fmovScan line.toList
  else false

/-- A `dg-final` directive holds of an assembly listing (one instruction
per line). -/
def finalHolds (asm : List String) : DgFinal → Bool
  | DgFinal.scanAssembler pat => asm.any (fun l => patternMatches pat l)
  | DgFinal.scanAssemblerTimes pat n => asm.countP (fun l => patternMatches pat l) == n

/-- A fixture's `dg-final` assertions all hold of an assembly listing. -/
def dgTestPasses (t : DgTest) (asm : List String) : Bool :=
  t.finals.all (fun d => finalHolds asm d)

/-- The directives of `gcc.target/arm/neon-vshl-imm-1.c`, lines 1-4. -/
def neon_vshl_imm_1 : DgTest :=
  { options := ["-O2", "-mfpu=neon", "-mfloat-abi=softfp", "-ftree-vectorize"],
    finals := [DgFinal.scanAssembler vshlRegex] }

/-- The directives of the SH PR target/50749 fixture, lines 1-6. -/
def sh_pr50749_postinc : DgTest :=
  { options := ["-O2"],
    finals := [DgFinal.scanAssemblerTimes fmovRegex 1] }

theorem mulHiFrom_eq : ∀ (fuel ax bc r8 : Nat), ax < 2 ^ fuel → r8 < 65536 →
    mulHiFrom (fuel + 1) ax bc r8 = some ((r8 + ax * bc) % 65536) := by
  intro fuel
  induction fuel with
  | zero =>
    intro ax bc r8 hax hr8
    interval_cases ax
    simp [mulHiFrom, Nat.mod_eq_of_lt hr8]
  | succ f ih =>
    intro ax bc r8 hax hr8
    have hax2 : ax / 2 < 2 ^ f := by
      have h2f : 2 ^ (f + 1) = 2 * 2 ^ f := by ring
      omega
    rw [mulHiFrom]
    by_cases hbit : ax % 2 = 1
    · rw [if_pos hbit]
      rw [ih (ax / 2) (bc * 2 % 65536) ((r8 + bc) % 65536) hax2 (Nat.mod_lt _ (by omega))]
      congr 1
      have h1 : (r8 + bc) % 65536 ≡ r8 + bc [MOD 65536] := Nat.mod_modEq _ _
      have h2 : ax / 2 * (bc * 2 % 65536) ≡ ax / 2 * (bc * 2) [MOD 65536] :=
        Nat.ModEq.mul_left _ (Nat.mod_modEq _ _)
      have h3 : (r8 + bc) % 65536 + ax / 2 * (bc * 2 % 65536) ≡
          r8 + bc + ax / 2 * (bc * 2) [MOD 65536] := h1.add h2
      have h4 : r8 + bc + ax / 2 * (bc * 2) = r8 + (2 * (ax / 2) + 1) * bc := by ring
      have h5 : 2 * (ax / 2) + 1 = ax := by omega
      rw [h3, h4, h5]
    · rw [if_neg hbit]
      have hbit0 : ax % 2 = 0 := by omega
      by_cases hz : ax / 2 = 0
      · have hax0 : ax = 0 := by omega
        rw [if_pos hz, hax0]
        simp [Nat.mod_eq_of_lt hr8]
      · rw [if_neg hz]
        rw [ih (ax / 2) (bc * 2 % 65536) r8 hax2 hr8]
        congr 1
        have h2 : ax / 2 * (bc * 2 % 65536) ≡ ax / 2 * (bc * 2) [MOD 65536] :=
          Nat.ModEq.mul_left _ (Nat.mod_modEq _ _)
        have h3 : r8 + ax / 2 * (bc * 2 % 65536) ≡ r8 + ax / 2 * (bc * 2) [MOD 65536] :=
          (Nat.ModEq.refl r8).add h2
        have h4 : r8 + ax / 2 * (bc * 2) = r8 + (2 * (ax / 2) + 0) * bc := by ring
        have h5 : 2 * (ax / 2) + 0 = ax := by omega
        rw [h3, h4, h5]

theorem mulHiEntry_eq (fuel ax bc r8 : Nat) (hbc : bc < 65536)
    (hr8 : r8 < 65536) (hfuel : 17 ≤ fuel) :
    mulHiEntry fuel ax bc r8 = some ((r8 + ax * bc) % 65536) := by
  obtain ⟨f, rfl⟩ : ∃ f, fuel = f + 1 := ⟨fuel - 1, by omega⟩
  have hp : (65536 : Nat) ≤ 2 ^ f := by
    calc (65536 : Nat) = 2 ^ 16 := by norm_num
    _ ≤ 2 ^ f := Nat.pow_le_pow_right (by norm_num) (by omega)
  unfold mulHiEntry
  by_cases h : ax < bc
  · rw [if_pos h, mulHiFrom_eq f ax bc r8 (by omega) hr8]
  · rw [if_neg h, mulHiFrom_eq f bc ax r8 (by omega) hr8]
    rw [Nat.mul_comm]

theorem crossTerm_eq (fuel opHi opLo r8 : Nat) (hHi : opHi < 65536)
    (hLo : opLo < 65536) (hr8 : r8 < 65536) (hfuel : 17 ≤ fuel) :
    crossTerm fuel opHi opLo r8 = some ((r8 + opLo * opHi) % 65536) := by
  unfold crossTerm
  by_cases h0 : opHi = 0
  · rw [if_pos h0]
    subst h0
    simp [Nat.mod_eq_of_lt hr8]
  · rw [if_neg h0]
    by_cases hf : opHi = 65535
    · rw [if_pos hf]
      subst hf
      congr 1
      omega
    · rw [if_neg hf]
      by_cases hz : opLo = 0
      · rw [if_pos hz]
        subst hz
        simp [Nat.mod_eq_of_lt hr8]
      · rw [if_neg hz]
        exact mulHiEntry_eq fuel opLo opHi r8 hHi hr8 hfuel

/-- The low plus high accumulator words track the 32-bit value
`acc + ax * (bcHi : bcLo)` modulo `2^32`. -/
theorem mulHiSiFrom_eq : ∀ (fuel ax bcLo bcHi r8 r16 : Nat), ax < 2 ^ fuel →
    r8 < 65536 → r16 < 65536 →
    mulHiSiFrom (fuel + 1) ax bcLo bcHi r8 r16 =
      some ((r16 * 65536 + r8 + ax * (bcHi * 65536 + bcLo)) % 4294967296 % 65536,
            (r16 * 65536 + r8 + ax * (bcHi * 65536 + bcLo)) % 4294967296 / 65536) := by
  intro fuel
  induction fuel with
  | zero =>
    intro ax bcLo bcHi r8 r16 hax hr8 hr16
    interval_cases ax
    have h0 : mulHiSiFrom 1 0 bcLo bcHi r8 r16 = some (r8, r16) := by
      rw [mulHiSiFrom]
      norm_num
    rw [h0]
    simp only [Option.some.injEq, Prod.mk.injEq]
    constructor <;> omega
  | succ f ih =>
    intro ax bcLo bcHi r8 r16 hax hr8 hr16
    have hax2 : ax / 2 < 2 ^ f := by
      have h2f : 2 ^ (f + 1) = 2 * 2 ^ f := by ring
      omega
    rw [mulHiSiFrom]
    by_cases hz : ax / 2 = 0
    · rw [if_pos hz]
      by_cases hbit : ax % 2 = 1
      · have hax1 : ax = 1 := by omega
        rw [if_pos hbit, if_pos hbit, hax1]
        simp only [Option.some.injEq, Prod.mk.injEq]
        constructor <;> omega
      · have hax0 : ax = 0 := by omega
        rw [if_neg hbit, if_neg hbit, hax0]
        simp only [Option.some.injEq, Prod.mk.injEq]
        constructor <;> omega
    · rw [if_neg hz]
      by_cases hbit : ax % 2 = 1
      · rw [if_pos hbit, if_pos hbit]
        rw [ih (ax / 2) (bcLo * 2 % 65536) ((bcHi * 2 + bcLo * 2 / 65536) % 65536)
          ((r8 + bcLo) % 65536) ((r16 + (r8 + bcLo) / 65536 + bcHi) % 65536)
          hax2 (Nat.mod_lt _ (by omega)) (Nat.mod_lt _ (by omega))]
        have key : (r16 + (r8 + bcLo) / 65536 + bcHi) % 65536 * 65536 + (r8 + bcLo) % 65536 +
            ax / 2 * ((bcHi * 2 + bcLo * 2 / 65536) % 65536 * 65536 + bcLo * 2 % 65536) ≡
            r16 * 65536 + r8 + ax * (bcHi * 65536 + bcLo) [MOD 4294967296] := by
          have hA : (r16 + (r8 + bcLo) / 65536 + bcHi) % 65536 * 65536 + (r8 + bcLo) % 65536 ≡
              r16 * 65536 + bcHi * 65536 + (r8 + bcLo) [MOD 4294967296] := by
            have h1 : (r16 + (r8 + bcLo) / 65536 + bcHi) % 65536 * 65536 ≡
                (r16 + (r8 + bcLo) / 65536 + bcHi) * 65536 [MOD 65536 * 65536] :=
              Nat.ModEq.mul_right' _ (Nat.mod_modEq _ _)
            have h2 : (r16 + (r8 + bcLo) / 65536 + bcHi) * 65536 + (r8 + bcLo) % 65536 =
                r16 * 65536 + bcHi * 65536 +
                  (65536 * ((r8 + bcLo) / 65536) + (r8 + bcLo) % 65536) := by ring
            have h3 : 65536 * ((r8 + bcLo) / 65536) + (r8 + bcLo) % 65536 = r8 + bcLo :=
              Nat.div_add_mod _ _
            calc (r16 + (r8 + bcLo) / 65536 + bcHi) % 65536 * 65536 + (r8 + bcLo) % 65536
                ≡ (r16 + (r8 + bcLo) / 65536 + bcHi) * 65536 + (r8 + bcLo) % 65536
                  [MOD 4294967296] := by
                  have : (65536 : Nat) * 65536 = 4294967296 := by norm_num
                  exact this ▸ h1.add_right _
              _ = r16 * 65536 + bcHi * 65536 + (r8 + bcLo) := by rw [h2, h3]
          have hB : (bcHi * 2 + bcLo * 2 / 65536) % 65536 * 65536 + bcLo * 2 % 65536 ≡
              (bcHi * 65536 + bcLo) * 2 [MOD 4294967296] := by
            have h1 : (bcHi * 2 + bcLo * 2 / 65536) % 65536 * 65536 ≡
                (bcHi * 2 + bcLo * 2 / 65536) * 65536 [MOD 65536 * 65536] :=
              Nat.ModEq.mul_right' _ (Nat.mod_modEq _ _)
            have h2 : (bcHi * 2 + bcLo * 2 / 65536) * 65536 + bcLo * 2 % 65536 =
                bcHi * 2 * 65536 + (65536 * (bcLo * 2 / 65536) + bcLo * 2 % 65536) := by ring
            have h3 : 65536 * (bcLo * 2 / 65536) + bcLo * 2 % 65536 = bcLo * 2 :=
              Nat.div_add_mod _ _
            calc (bcHi * 2 + bcLo * 2 / 65536) % 65536 * 65536 + bcLo * 2 % 65536
                ≡ (bcHi * 2 + bcLo * 2 / 65536) * 65536 + bcLo * 2 % 65536
                  [MOD 4294967296] := by
                  have : (65536 : Nat) * 65536 = 4294967296 := by norm_num
                  exact this ▸ h1.add_right _
              _ = bcHi * 2 * 65536 + (65536 * (bcLo * 2 / 65536) + bcLo * 2 % 65536) := h2
              _ = (bcHi * 65536 + bcLo) * 2 := by rw [h3]; ring
          calc (r16 + (r8 + bcLo) / 65536 + bcHi) % 65536 * 65536 + (r8 + bcLo) % 65536 +
              ax / 2 * ((bcHi * 2 + bcLo * 2 / 65536) % 65536 * 65536 + bcLo * 2 % 65536)
              ≡ r16 * 65536 + bcHi * 65536 + (r8 + bcLo) +
                ax / 2 * ((bcHi * 65536 + bcLo) * 2) [MOD 4294967296] :=
                hA.add (hB.mul_left _)
            _ = r16 * 65536 + r8 + (2 * (ax / 2) + 1) * (bcHi * 65536 + bcLo) := by ring
            _ = r16 * 65536 + r8 + ax * (bcHi * 65536 + bcLo) := by
                congr 2
                omega
        rw [key]
      · rw [if_neg hbit, if_neg hbit]
        rw [ih (ax / 2) (bcLo * 2 % 65536) ((bcHi * 2 + bcLo * 2 / 65536) % 65536)
          r8 r16 hax2 hr8 hr16]
        have key : r16 * 65536 + r8 +
            ax / 2 * ((bcHi * 2 + bcLo * 2 / 65536) % 65536 * 65536 + bcLo * 2 % 65536) ≡
            r16 * 65536 + r8 + ax * (bcHi * 65536 + bcLo) [MOD 4294967296] := by
          have hB : (bcHi * 2 + bcLo * 2 / 65536) % 65536 * 65536 + bcLo * 2 % 65536 ≡
              (bcHi * 65536 + bcLo) * 2 [MOD 4294967296] := by
            have h1 : (bcHi * 2 + bcLo * 2 / 65536) % 65536 * 65536 ≡
                (bcHi * 2 + bcLo * 2 / 65536) * 65536 [MOD 65536 * 65536] :=
              Nat.ModEq.mul_right' _ (Nat.mod_modEq _ _)
            have h2 : (bcHi * 2 + bcLo * 2 / 65536) * 65536 + bcLo * 2 % 65536 =
                bcHi * 2 * 65536 + (65536 * (bcLo * 2 / 65536) + bcLo * 2 % 65536) := by ring
            have h3 : 65536 * (bcLo * 2 / 65536) + bcLo * 2 % 65536 = bcLo * 2 :=
              Nat.div_add_mod _ _
            calc (bcHi * 2 + bcLo * 2 / 65536) % 65536 * 65536 + bcLo * 2 % 65536
                ≡ (bcHi * 2 + bcLo * 2 / 65536) * 65536 + bcLo * 2 % 65536
                  [MOD 4294967296] := by
                  have : (65536 : Nat) * 65536 = 4294967296 := by norm_num
                  exact this ▸ h1.add_right _
              _ = bcHi * 2 * 65536 + (65536 * (bcLo * 2 / 65536) + bcLo * 2 % 65536) := h2
              _ = (bcHi * 65536 + bcLo) * 2 := by rw [h3]; ring
          calc r16 * 65536 + r8 +
              ax / 2 * ((bcHi * 2 + bcLo * 2 / 65536) % 65536 * 65536 + bcLo * 2 % 65536)
              ≡ r16 * 65536 + r8 + ax / 2 * ((bcHi * 65536 + bcLo) * 2) [MOD 4294967296] :=
                (Nat.ModEq.refl _).add (hB.mul_left _)
            _ = r16 * 65536 + r8 + (2 * (ax / 2) + 0) * (bcHi * 65536 + bcLo) := by ring
            _ = r16 * 65536 + r8 + ax * (bcHi * 65536 + bcLo) := by
                congr 2
                omega
        rw [key]

theorem mulsi3body_eq (fuel a b : Nat) (ha : a < 4294967296) (hb : b < 4294967296)
    (hfuel : 17 ≤ fuel) :
    mulsi3body fuel a b =
      some (a * b % 4294967296 % 65536, a * b % 4294967296 / 65536) := by
  have haH : a / 65536 % 65536 = a / 65536 := by omega
  have hbH : b / 65536 % 65536 = b / 65536 := by omega
  have h1 : crossTerm fuel (b / 65536 % 65536) (a % 65536) 0 =
      some ((0 + a % 65536 * (b / 65536 % 65536)) % 65536) :=
    crossTerm_eq fuel _ _ 0 (by omega) (by omega) (by omega) hfuel
  have h2 : crossTerm fuel (a / 65536 % 65536) (b % 65536)
        ((0 + a % 65536 * (b / 65536 % 65536)) % 65536) =
      some (((0 + a % 65536 * (b / 65536 % 65536)) % 65536 +
        b % 65536 * (a / 65536 % 65536)) % 65536) :=
    crossTerm_eq fuel _ _ _ (by omega) (by omega) (Nat.mod_lt _ (by omega)) hfuel
  unfold mulsi3body
  simp only [h1, h2]
  obtain ⟨f, rfl⟩ : ∃ f, fuel = f + 1 := ⟨fuel - 1, by omega⟩
  have hp : (65536 : Nat) ≤ 2 ^ f := by
    calc (65536 : Nat) = 2 ^ 16 := by norm_num
    _ ≤ 2 ^ f := Nat.pow_le_pow_right (by norm_num) (by omega)
  set cross := ((0 + a % 65536 * (b / 65536 % 65536)) % 65536 +
    b % 65536 * (a / 65536 % 65536)) % 65536 with hcross
  have hcrossLt : cross < 65536 := Nat.mod_lt _ (by omega)
  have key : ∀ m n : Nat, m * n = a % 65536 * (b % 65536) →
      (cross * 65536 + 0 + m * (0 * 65536 + n)) % 4294967296 = a * b % 4294967296 := by
    intro m n hmn
    have hc1 : cross ≡ a % 65536 * (b / 65536) + a / 65536 * (b % 65536) [MOD 65536] := by
      rw [hcross]
      calc ((0 + a % 65536 * (b / 65536 % 65536)) % 65536 + b % 65536 * (a / 65536 % 65536))
            % 65536
          ≡ 0 + a % 65536 * (b / 65536 % 65536) + b % 65536 * (a / 65536 % 65536)
            [MOD 65536] := (Nat.mod_modEq _ _).trans ((Nat.mod_modEq _ _).add_right _)
        _ = a % 65536 * (b / 65536) + a / 65536 * (b % 65536) := by
            rw [haH, hbH]
            ring
    have hc2 : cross * 65536 ≡
        (a % 65536 * (b / 65536) + a / 65536 * (b % 65536)) * 65536
        [MOD 65536 * 65536] := Nat.ModEq.mul_right' _ hc1
    have hc3 : cross * 65536 + 0 + m * (0 * 65536 + n) ≡
        (a % 65536 * (b / 65536) + a / 65536 * (b % 65536)) * 65536 +
          a % 65536 * (b % 65536) [MOD 4294967296] := by
      have h65 : (65536 : Nat) * 65536 = 4294967296 := by norm_num
      calc cross * 65536 + 0 + m * (0 * 65536 + n)
          = cross * 65536 + m * n := by ring
        _ = cross * 65536 + a % 65536 * (b % 65536) := by rw [hmn]
        _ ≡ (a % 65536 * (b / 65536) + a / 65536 * (b % 65536)) * 65536 +
              a % 65536 * (b % 65536) [MOD 4294967296] := by
            exact h65 ▸ hc2.add_right _
    have hab : a * b =
        (a % 65536 * (b / 65536) + a / 65536 * (b % 65536)) * 65536 +
          a % 65536 * (b % 65536) + 4294967296 * (a / 65536 * (b / 65536)) := by
      have ha' : a = 65536 * (a / 65536) + a % 65536 := (Nat.div_add_mod a 65536).symm
      have hb' : b = 65536 * (b / 65536) + b % 65536 := (Nat.div_add_mod b 65536).symm
      calc a * b = (65536 * (a / 65536) + a % 65536) * (65536 * (b / 65536) + b % 65536) := by
            rw [← ha', ← hb']
        _ = (a % 65536 * (b / 65536) + a / 65536 * (b % 65536)) * 65536 +
              a % 65536 * (b % 65536) + 4294967296 * (a / 65536 * (b / 65536)) := by ring
    have hc4 : (a % 65536 * (b / 65536) + a / 65536 * (b % 65536)) * 65536 +
        a % 65536 * (b % 65536) ≡ a * b [MOD 4294967296] := by
      show _ % _ = _ % _
      rw [hab, Nat.add_mul_mod_self_left]
    exact hc3.trans hc4
  by_cases hlt : b % 65536 < a % 65536
  · rw [if_pos hlt]
    rw [mulHiSiFrom_eq f (b % 65536) (a % 65536) 0 0 cross (by omega) (by omega) hcrossLt]
    rw [key (b % 65536) (a % 65536) (Nat.mul_comm _ _)]
  · rw [if_neg hlt]
    rw [mulHiSiFrom_eq f (a % 65536) (b % 65536) 0 0 cross (by omega) (by omega) hcrossLt]
    rw [key (a % 65536) (b % 65536) rfl]

/-- What `___mulsi3` returns: the two result words of `(a * b) mod 2^32` in
`R8..R11` and the caller's bank-2 AX and BC restored by the pops. -/
theorem mulsi3_eq (fuel a b b2ax b2bc : Nat) (ha : a < 4294967296)
    (hb : b < 4294967296) (hfuel : 17 ≤ fuel) :
    ___mulsi3 fuel a b b2ax b2bc =
      some (a * b % 4294967296 % 65536, a * b % 4294967296 / 65536, b2ax, b2bc) := by
  unfold ___mulsi3
  rw [mulsi3body_eq fuel a b ha hb hfuel]
  rfl

/-- Arithmetic shape of the result: the low 32 bits of `a * b` are the low
partial product `aL * bL` plus the 16-bit sum of the two cross terms
`aL * bH + aH * bL` placed in the high 16 bits. -/
theorem lowProduct_decomp (a b : Nat) (ha : a < 4294967296) (hb : b < 4294967296) :
    a * b % 4294967296 =
      (a % 65536 * (b % 65536) +
        (a % 65536 * (b / 65536) + a / 65536 * (b % 65536)) % 65536 * 65536) %
        4294967296 := by
  have h1 : a % 65536 * (b % 65536) +
      (a % 65536 * (b / 65536) + a / 65536 * (b % 65536)) % 65536 * 65536 ≡
      a % 65536 * (b % 65536) +
      (a % 65536 * (b / 65536) + a / 65536 * (b % 65536)) * 65536
      [MOD 4294967296] := by
    have h65 : (65536 : Nat) * 65536 = 4294967296 := by norm_num
    exact (Nat.ModEq.refl _).add (h65 ▸ Nat.ModEq.mul_right' _ (Nat.mod_modEq _ _))
  have h2 : a * b = a % 65536 * (b % 65536) +
      (a % 65536 * (b / 65536) + a / 65536 * (b % 65536)) * 65536 +
      4294967296 * (a / 65536 * (b / 65536)) := by
    have ha' : a = 65536 * (a / 65536) + a % 65536 := (Nat.div_add_mod a 65536).symm
    have hb' : b = 65536 * (b / 65536) + b % 65536 := (Nat.div_add_mod b 65536).symm
    calc a * b = (65536 * (a / 65536) + a % 65536) * (65536 * (b / 65536) + b % 65536) := by
          rw [← ha', ← hb']
      _ = a % 65536 * (b % 65536) +
          (a % 65536 * (b / 65536) + a / 65536 * (b % 65536)) * 65536 +
          4294967296 * (a / 65536 * (b / 65536)) := by ring
  have h3 : a % 65536 * (b % 65536) +
      (a % 65536 * (b / 65536) + a / 65536 * (b % 65536)) * 65536 ≡
      a * b [MOD 4294967296] := by
    show _ % _ = _ % _
    rw [h2, Nat.add_mul_mod_self_left]
  exact (h1.trans h3).symm

/-- C1: for every pair of 32-bit operands `a` and `b`, `___mulsi3` returns in
`R8..R11` the low 32 bits of their product, `(a * b) mod 2^32` (low word in
`R8R9`, high word in `R10R11`), and that value is the low partial product
`aL * bL` plus the cross terms `(aL * bH + aH * bL)` shifted into the high
16 bits. -/
theorem mulsi3_returns_low32 (fuel a b b2ax b2bc : Nat) (hfuel : 17 ≤ fuel)
    (ha : a < 4294967296) (hb : b < 4294967296) :
    ___mulsi3 fuel a b b2ax b2bc =
      some (a * b % 4294967296 % 65536, a * b % 4294967296 / 65536, b2ax, b2bc) ∧
    a * b % 4294967296 =
      (a % 65536 * (b % 65536) +
        (a % 65536 * (b / 65536) + a / 65536 * (b % 65536)) % 65536 * 65536) %
        4294967296 :=
  ⟨mulsi3_eq fuel a b b2ax b2bc ha hb hfuel, lowProduct_decomp a b ha hb⟩

theorem mulsi3_returns_low32_witness :
    ___mulsi3 17 123456 654321 7 9 = some (48704, 52954, 7, 9) :=
  (mulsi3_returns_low32 17 123456 654321 7 9 (by norm_num) (by norm_num)
    (by norm_num)).1.trans (by norm_num)

/-- What `___mulhi3` returns: the low 16 bits of `a * b` in `R8`. -/
theorem mulhi3_eq (fuel a b : Nat) (hfuel : 17 ≤ fuel) (hb : b < 65536) :
    ___mulhi3 fuel a b = some (a * b % 65536) := by
  unfold ___mulhi3
  rw [mulHiEntry_eq fuel a b 0 hb (by omega) hfuel]
  norm_num

/-- C2: for every pair of 16-bit operands `a` and `b`, `___mulhi3` returns in
`R8` the low 16 bits of their product, `(a * b) mod 2^16`. -/
theorem mulhi3_returns_low16 (fuel a b : Nat) (hfuel : 17 ≤ fuel)
    (ha : a < 65536) (hb : b < 65536) :
    ___mulhi3 fuel a b = some (a * b % 65536) :=
  mulhi3_eq fuel a b hfuel hb

theorem mulhi3_returns_low16_witness : ___mulhi3 17 300 500 = some 18928 :=
  (mulhi3_returns_low16 17 300 500 (by norm_num) (by norm_num) (by norm_num)).trans
    (by norm_num)

/-- C3: both shift-and-add loops terminate for every pair of operands.  Fuel
counts one unit per shift of the multiplier word; a 16-bit multiplier word
is zeroed by at most 16 right shifts (`c / 2 ^ 16 = 0`), and 17 units — 16
shifts plus the final test that sees the multiplier hit zero after an add
step — are enough for both routines to reach `ret` (`isSome`). -/
theorem mul_loops_terminate (a b c d x y : Nat) (ha : a < 4294967296)
    (hb : b < 4294967296) (hc : c < 65536) (hd : d < 65536) :
    (___mulsi3 17 a b x y).isSome = true ∧ (___mulhi3 17 c d).isSome = true ∧
      c / 2 ^ 16 = 0 := by
  refine ⟨?_, ?_, ?_⟩
  · rw [mulsi3_eq 17 a b x y ha hb (by norm_num)]
    rfl
  · rw [mulhi3_eq 17 c d (by norm_num) hd]
    rfl
  · have h16 : (2 : Nat) ^ 16 = 65536 := by norm_num
    omega

theorem mul_loops_terminate_witness :
    (___mulsi3 17 4294967295 4294967295 0 0).isSome = true ∧
      (___mulhi3 17 65535 65535).isSome = true ∧ 65535 / 2 ^ 16 = 0 :=
  mul_loops_terminate 4294967295 4294967295 65535 65535 0 0 (by norm_num)
    (by norm_num) (by norm_num) (by norm_num)

/-- The signed product agrees with the unsigned product modulo `2^32`. -/
theorem signed_product_mod (a b : Nat) (ha : a < 4294967296) (hb : b < 4294967296) :
    (toSigned32 a * toSigned32 b % (4294967296 : Int)).toNat = a * b % 4294967296 := by
  have key : toSigned32 a * toSigned32 b % (4294967296 : Int) =
      ((a : Int) * (b : Int)) % 4294967296 := by
    unfold toSigned32
    by_cases h1 : a < 2147483648 <;> by_cases h2 : b < 2147483648
    · rw [if_pos h1, if_pos h2]
    · rw [if_pos h1, if_neg h2]
      have : (a : Int) * ((b : Int) - 4294967296) =
          (a : Int) * (b : Int) + 4294967296 * (-(a : Int)) := by ring
      rw [this, Int.add_mul_emod_self_left]
    · rw [if_neg h1, if_pos h2]
      have : ((a : Int) - 4294967296) * (b : Int) =
          (a : Int) * (b : Int) + 4294967296 * (-(b : Int)) := by ring
      rw [this, Int.add_mul_emod_self_left]
    · rw [if_neg h1, if_neg h2]
      have : ((a : Int) - 4294967296) * ((b : Int) - 4294967296) =
          (a : Int) * (b : Int) +
            4294967296 * (4294967296 - (a : Int) - (b : Int)) := by ring
      rw [this, Int.add_mul_emod_self_left]
  rw [key]
  have hcast : ((a : Int) * (b : Int)) % 4294967296 = ((a * b % 4294967296 : Nat) : Int) := by
    push_cast
    rfl
  rw [hcast]
  exact Int.toNat_natCast _

/-- C4: the helper serves signed and unsigned multiplication alike.  For every
pair of 32-bit bit patterns, the low 32 bits of the two's-complement signed
product equal the low 32 bits of the unsigned product, and `___mulsi3`
returns that common value. -/
theorem mulsi3_signed_unsigned (fuel a b b2ax b2bc : Nat) (hfuel : 17 ≤ fuel)
    (ha : a < 4294967296) (hb : b < 4294967296) :
    (toSigned32 a * toSigned32 b % (4294967296 : Int)).toNat = a * b % 4294967296 ∧
    ___mulsi3 fuel a b b2ax b2bc =
      some (a * b % 4294967296 % 65536, a * b % 4294967296 / 65536, b2ax, b2bc) :=
  ⟨signed_product_mod a b ha hb, mulsi3_eq fuel a b b2ax b2bc ha hb hfuel⟩

theorem mulsi3_signed_unsigned_witness :
    (toSigned32 4294967295 * toSigned32 4294967295 % (4294967296 : Int)).toNat =
      4294967295 * 4294967295 % 4294967296 ∧
    ___mulsi3 17 4294967295 4294967295 3 4 =
      some (4294967295 * 4294967295 % 4294967296 % 65536,
        4294967295 * 4294967295 % 4294967296 / 65536, 3, 4) :=
  mulsi3_signed_unsigned 17 4294967295 4294967295 3 4 (by norm_num) (by norm_num)
    (by norm_num)

/-- C5: both helpers are commutative in their operands. -/
theorem mul_helpers_comm (fuel a b c d x y : Nat) (hfuel : 17 ≤ fuel)
    (ha : a < 4294967296) (hb : b < 4294967296) (hc : c < 65536) (hd : d < 65536) :
    ___mulsi3 fuel a b x y = ___mulsi3 fuel b a x y ∧
    ___mulhi3 fuel c d = ___mulhi3 fuel d c := by
  constructor
  · rw [mulsi3_eq fuel a b x y ha hb hfuel, mulsi3_eq fuel b a x y hb ha hfuel,
      Nat.mul_comm]
  · rw [mulhi3_eq fuel c d hfuel hd, mulhi3_eq fuel d c hfuel hc, Nat.mul_comm]

theorem mul_helpers_comm_witness :
    ___mulsi3 17 123456 654321 0 0 = ___mulsi3 17 654321 123456 0 0 ∧
    ___mulhi3 17 300 65535 = ___mulhi3 17 65535 300 :=
  mul_helpers_comm 17 123456 654321 300 65535 0 0 (by norm_num) (by norm_num)
    (by norm_num) (by norm_num) (by norm_num)

/-- C6: zero annihilates and one is an identity for `___mulsi3`. -/
theorem mulsi3_zero_one (fuel a x y : Nat) (hfuel : 17 ≤ fuel)
    (ha : a < 4294967296) :
    ___mulsi3 fuel a 0 x y = some (0, 0, x, y) ∧
    ___mulsi3 fuel 0 a x y = some (0, 0, x, y) ∧
    ___mulsi3 fuel a 1 x y = some (a % 65536, a / 65536, x, y) := by
  refine ⟨?_, ?_, ?_⟩
  · rw [mulsi3_eq fuel a 0 x y ha (by norm_num) hfuel]
    norm_num
  · rw [mulsi3_eq fuel 0 a x y (by norm_num) ha hfuel]
    norm_num
  · rw [mulsi3_eq fuel a 1 x y ha (by norm_num) hfuel]
    rw [Nat.mul_one, Nat.mod_eq_of_lt ha]

theorem mulsi3_zero_one_witness :
    ___mulsi3 17 3470442048 0 1 2 = some (0, 0, 1, 2) ∧
    ___mulsi3 17 0 3470442048 1 2 = some (0, 0, 1, 2) ∧
    ___mulsi3 17 3470442048 1 1 2 = some (3470442048 % 65536, 3470442048 / 65536, 1, 2) :=
  mulsi3_zero_one 17 3470442048 1 2 (by norm_num) (by norm_num)

/-- C8: `___mulsi3` preserves the caller's register-bank-2 working registers.
It pushes bank-2 AX (`r16r17`) and BC (`r18r19`) on entry and pops them
before returning, so whenever the routine returns, those registers hold
their entry values `b2ax` and `b2bc` again, and the only other components
of the returned machine state are the 32-bit result words in `R8..R11`. -/
theorem mulsi3_preserves_bank2 (fuel a b b2ax b2bc : Nat)
    (r : Nat × Nat × Nat × Nat) (h : ___mulsi3 fuel a b b2ax b2bc = some r) :
    r.2.2.1 = b2ax ∧ r.2.2.2 = b2bc := by
  unfold ___mulsi3 at h
  cases hbody : mulsi3body fuel a b with
  | none =>
    rw [hbody] at h
    exact absurd h (by simp)
  | some p =>
    rw [hbody] at h
    obtain ⟨r8r9, r10r11⟩ := p
    simp only [Option.some.injEq] at h
    rw [← h]
    exact ⟨rfl, rfl⟩

theorem mulsi3_preserves_bank2_witness :
    (48704, 52954, 7, 9).2.2.1 = 7 ∧ (48704, 52954, 7, 9).2.2.2 = 9 :=
  mulsi3_preserves_bank2 17 123456 654321 7 9 (48704, 52954, 7, 9)
    ((mulsi3_eq 17 123456 654321 7 9 (by norm_num) (by norm_num) (by norm_num)).trans
      (by norm_num))

theorem f1Loop_eq : ∀ (k : Nat) (n : Int) (x : Int → Int) (i : Int),
    (n - i).toNat = k →
    f1Loop n x i = (List.range k).map
      (fun j : Nat => (i + (j : Int), wrap32 (x (i + (j : Int)) * 8))) := by
  intro k
  induction k with
  | zero =>
    intro n x i hk
    rw [f1Loop, dif_neg (by omega)]
    simp
  | succ m ih =>
    intro n x i hk
    rw [f1Loop, dif_pos (by omega)]
    rw [ih n x (i + 1) (by omega)]
    rw [List.range_succ_eq_map, List.map_cons, List.map_map]
    congr 1
    · simp
    · apply List.map_congr_left
      intro j hj
      have hcast : i + ((j + 1 : Nat) : Int) = i + 1 + (j : Int) := by
        push_cast
        ring
      simp only [Function.comp_apply, Nat.succ_eq_add_one, hcast]

/-- C9: `f1` stores `x[i] << 3` — that is, `x[i] * 8` truncated to 32-bit
two's complement — into `y[i]` for each index `0 <= i < n`, visiting the
indices in increasing order (the store trace is exactly the list for
`i = 0, 1, ..., n-1`); it performs no store at all when `n <= 0`.  Stores
to `x` never occur: the trace built by `f1Loop` contains only the `y`
stores, and `x` is consulted purely as a function. -/
theorem f1_stores_shifts (n : Int) (x : Int → Int) :
    f1 n x = (List.range n.toNat).map
      (fun j : Nat => ((j : Int), wrap32 (x (j : Int) * 8))) ∧
    (n ≤ 0 → f1 n x = []) := by
  have h := f1Loop_eq n.toNat n x 0 (by omega)
  constructor
  · rw [f1, h]
    apply List.map_congr_left
    intro j hj
    simp
  · intro hn
    rw [f1, h]
    have h0 : n.toNat = 0 := by omega
    rw [h0]
    simp

theorem f1_stores_shifts_witness : f1 (-1) (fun v => v) = [] :=
  (f1_stores_shifts (-1) (fun v => v)).2 (by norm_num)

theorem wrap32_id (v : Int) (h0 : 0 ≤ v) (h1 : v < 2147483648) : wrap32 v = v := by
  unfold wrap32
  omega

theorem tfLoop_run {α : Type} (add : α → α → α) (p : Nat → α) :
    ∀ (fuel : Nat) (c : Int) (r : α) (i : Nat), 1 ≤ c → c ≤ 2147483647 →
    c.toNat ≤ fuel →
    tfLoop add p fuel r i c =
      (List.foldl add r ((List.range' i c.toNat).map p), i + c.toNat, 0, true) := by
  intro fuel
  induction fuel with
  | zero =>
    intro c r i h1 h2 h3
    omega
  | succ f ih =>
    intro c r i h1 h2 h3
    have hw : wrap32 (c - 1) = c - 1 := wrap32_id _ (by omega) (by omega)
    rw [tfLoop, hw]
    by_cases hc1 : c = 1
    · subst hc1
      rw [if_pos (by norm_num)]
      norm_num [List.range'_one]
    · rw [if_neg (by omega)]
      rw [ih (c - 1) (add r (p i)) (i + 1) (by omega) (by omega) (by omega)]
      have hct : c.toNat = (c - 1).toNat + 1 := by omega
      rw [hct, List.range'_succ, List.map_cons, List.foldl_cons]
      have harith : i + 1 + (c - 1).toNat = i + ((c - 1).toNat + 1) := by omega
      rw [harith]

theorem tfLoop_iters_ge {α : Type} (add : α → α → α) (p : Nat → α) :
    ∀ (fuel : Nat) (r : α) (i : Nat) (c : Int), i ≤ (tfLoop add p fuel r i c).2.1 := by
  intro fuel
  induction fuel with
  | zero => intro r i c; exact Nat.le_refl i
  | succ f ih =>
    intro r i c
    rw [tfLoop]
    by_cases h : wrap32 (c - 1) = 0
    · rw [if_pos h]
      exact Nat.le_succ i
    · rw [if_neg h]
      exact Nat.le_trans (Nat.le_succ i) (ih (add r (p i)) (i + 1) (wrap32 (c - 1)))

theorem tfLoop_done_counter {α : Type} (add : α → α → α) (p : Nat → α) :
    ∀ (fuel : Nat) (r : α) (i : Nat) (c : Int),
    (tfLoop add p fuel r i c).2.2.2 = true → (tfLoop add p fuel r i c).2.2.1 = 0 := by
  intro fuel
  induction fuel with
  | zero =>
    intro r i c h
    exact absurd h (by simp [tfLoop])
  | succ f ih =>
    intro r i c
    rw [tfLoop]
    by_cases h : wrap32 (c - 1) = 0
    · rw [if_pos h]
      intro _
      exact h
    · rw [if_neg h]
      exact ih (add r (p i)) (i + 1) (wrap32 (c - 1))

/-- C10: for `1 <= c` (within `int` range, with enough fuel) the do-while
body of `test_func_00` executes exactly `c` times and the function returns
the left-to-right sum `((0 + p[0]) + p[1]) + ... + p[c-1]`, with the
counter ending at exactly 0.  Because the loop is do-while, whenever at
least one step of fuel exists the body runs — and `p` is dereferenced —
at least once, for every `c` including `c = 0`; and the loop reports
`finished` only when the decremented counter has reached exactly zero. -/
theorem test_func_00_do_while (α : Type) (add : α → α → α) (zero : α)
    (p : Nat → α) (c : Int) (fuel : Nat) :
    (1 ≤ c → c ≤ 2147483647 → c.toNat ≤ fuel →
      test_func_00 add zero p c fuel =
        (List.foldl add zero ((List.range c.toNat).map p), c.toNat, 0, true)) ∧
    (1 ≤ fuel → 1 ≤ (test_func_00 add zero p c fuel).2.1) ∧
    ((test_func_00 add zero p c fuel).2.2.2 = true →
      (test_func_00 add zero p c fuel).2.2.1 = 0) := by
  refine ⟨?_, ?_, ?_⟩
  · intro h1 h2 h3
    unfold test_func_00
    rw [tfLoop_run add p fuel c zero 0 h1 h2 h3, List.range_eq_range']
    norm_num
  · intro hf
    obtain ⟨f, rfl⟩ : ∃ f, fuel = f + 1 := ⟨fuel - 1, by omega⟩
    unfold test_func_00
    rw [tfLoop]
    by_cases h : wrap32 (c - 1) = 0
    · rw [if_pos h]
    · rw [if_neg h]
      exact tfLoop_iters_ge add p f (add zero (p 0)) 1 (wrap32 (c - 1))
  · exact tfLoop_done_counter add p fuel zero 0 c

theorem test_func_00_do_while_witness :
    test_func_00 (fun a b : Int => a + b) 0 (fun i => (i : Int)) 3 5 = (3, 3, 0, true) :=
  ((test_func_00_do_while Int (fun a b : Int => a + b) 0 (fun i => (i : Int)) 3 5).1
    (by norm_num) (by norm_num) (by norm_num)).trans (by decide)

theorem patternMatches_vshl : (fun l => patternMatches vshlRegex l) =
    fun l : String => vshlThenImm3 l.toList := by
  funext l
  unfold patternMatches
  rw [if_pos rfl]

theorem patternMatches_fmov : (fun l => patternMatches fmovRegex l) =
    fun l : String => fmovScan l.toList := by
  funext l
  unfold patternMatches
  rw [if_neg (by decide), if_pos rfl]

/-- C7: each fixture asserts a specific instruction-selection outcome.
`neon-vshl-imm-1.c` compiles `f1` with
`-O2 -mfpu=neon -mfloat-abi=softfp -ftree-vectorize` and demands that the
assembly contain a `vshl.i32` instruction with immediate `#3`; the
PR target/50749 fixture compiles `test_func_00` with `-O2` and demands that
the assembly contain exactly one post-increment load `fmov.s @rN+,frM`.
(The compiler itself is not among the sources, so the theorem characterises
what outputs the fixtures accept.) -/
theorem fixtures_assert_selection :
    neon_vshl_imm_1.options = ["-O2", "-mfpu=neon", "-mfloat-abi=softfp",
      "-ftree-vectorize"] ∧
    sh_pr50749_postinc.options = ["-O2"] ∧
    (∀ asm : List String, dgTestPasses neon_vshl_imm_1 asm = true →
      ∃ l ∈ asm, vshlThenImm3 l.toList = true) ∧
    (∀ asm : List String, dgTestPasses sh_pr50749_postinc asm = true →
      asm.countP (fun l => fmovScan l.toList) = 1) := by
  refine ⟨rfl, rfl, ?_, ?_⟩
  · intro asm h
    unfold dgTestPasses neon_vshl_imm_1 finalHolds at h
    simp only [List.all_cons, List.all_nil, Bool.and_true] at h
    rw [patternMatches_vshl] at h
    rw [← List.any_eq_true]
    exact h
  · intro asm h
    unfold dgTestPasses sh_pr50749_postinc finalHolds at h
    simp only [List.all_cons, List.all_nil, Bool.and_true] at h
    rw [patternMatches_fmov] at h
    exact eq_of_beq h

theorem fixtures_assert_selection_witness :
    ∃ l ∈ ["vshl.i32 q8, q8, #3"], vshlThenImm3 l.toList = true :=
  fixtures_assert_selection.2.2.1 ["vshl.i32 q8, q8, #3"] (by decide)
